import Mathlib

/-!
Verification of the bigint-poly polynomial arithmetic library.

The definitions below are a shallow embedding of `src/polynomial.rs`
(and, for the scalar modular-reduction helpers whose source file
`src/utils.rs` is not available, of the specification's description).
Polynomial coefficients are stored highest-degree first, exactly as in
the Rust code; arbitrary-precision `BigInt` values become `ℤ`.
-/

namespace BigintPoly

/-- Error type, from `src/errors.rs` (`enum PolynomialError`). -/
inductive PolynomialError where
  | DivisionByZero
  | InvalidPolynomial (msg : String)
  | ModulusError (msg : String)
  | CyclotomicError (msg : String)
  | RangeCheckError (msg : String)
  | ArithmeticError (msg : String)
deriving Repr, DecidableEq

/-- A polynomial: coefficients in descending order (highest degree first),
from `struct Polynomial` in `src/polynomial.rs`. -/
structure Polynomial where
  coefficients : List ℤ
deriving Repr, DecidableEq

/-- Embeds `Polynomial::new`. -/
def Polynomial.new (coefficients : List ℤ) : Polynomial :=
  ⟨coefficients⟩

/-- Embeds `Polynomial::zero(degree)`: `degree + 1` zero coefficients. -/
def Polynomial.zero (degree : Nat) : Polynomial :=
  ⟨List.replicate (degree + 1) 0⟩

/-- Embeds `Polynomial::constant`. -/
def Polynomial.constant (c : ℤ) : Polynomial :=
  ⟨[c]⟩

/-- Embeds `Polynomial::degree`: 0 for an empty coefficient list, else `len - 1`. -/
def Polynomial.degree (p : Polynomial) : Nat :=
  if p.coefficients.isEmpty then 0 else p.coefficients.length - 1

/-- Embeds `Polynomial::is_zero`: every stored coefficient equals zero. -/
def Polynomial.is_zero (p : Polynomial) : Bool :=
  p.coefficients.all (fun c => decide (c = 0))

/-- Loop of `Polynomial::trim_leading_zeros`: remove the front element
while the length exceeds 1 and the front element is zero. -/
def trimAux : List ℤ → List ℤ
  | [] => []
  | c :: rest => if 0 < rest.length ∧ c = 0 then trimAux rest else c :: rest

/-- Embeds `Polynomial::trim_leading_zeros`. -/
def Polynomial.trim_leading_zeros (p : Polynomial) : Polynomial :=
  ⟨trimAux p.coefficients⟩

/-- Embeds `Polynomial::leading_coefficient`: first stored coefficient. -/
def Polynomial.leading_coefficient (p : Polynomial) : Option ℤ :=
  p.coefficients.head?

/-- Embeds `Polynomial::neg`: negate every coefficient. -/
def Polynomial.neg (p : Polynomial) : Polynomial :=
  ⟨p.coefficients.map (fun x => -x)⟩

/-- In-place accumulation `v[k] += x` on a vector, as used by the Rust
loops (the index is always in bounds at every call site). -/
def addAt (l : List ℤ) (k : Nat) (x : ℤ) : List ℤ :=
  l.set k (l.getD k 0 + x)

/-- Embeds `Polynomial::add` on raw coefficient vectors: allocate
`max` zeros, copy the first operand at offset `max - len(a)`,
accumulate the second at offset `max - len(b)`. -/
def addCoeffs (a b : List ℤ) : List ℤ :=
  let maxLength := max a.length b.length
  let result0 := List.replicate maxLength (0 : ℤ)
  let result1 := (List.range a.length).foldl
    (fun res i => res.set (maxLength - a.length + i) (a.getD i 0)) result0
  (List.range b.length).foldl
    (fun res i => addAt res (maxLength - b.length + i) (b.getD i 0)) result1

/-- Embeds `Polynomial::add`. -/
def Polynomial.add (p other : Polynomial) : Polynomial :=
  ⟨addCoeffs p.coefficients other.coefficients⟩

/-- Embeds `Polynomial::sub`. -/
def Polynomial.sub (p other : Polynomial) : Polynomial :=
  p.add other.neg

/-- Nested accumulation loops of `Polynomial::mul`:
`product[i + j] += a[i] * b[j]` over all index pairs, on a vector of
`len(a) + len(b) - 1` zeros. -/
def mulRaw (a b : List ℤ) : List ℤ :=
  (List.range a.length).foldl
    (fun prod i => (List.range b.length).foldl
      (fun prod j => addAt prod (i + j) (a.getD i 0 * b.getD j 0)) prod)
    (List.replicate (a.length + b.length - 1) (0 : ℤ))

/-- Embeds `Polynomial::mul`: single-coefficient zero polynomial if either
operand is structurally zero, otherwise the schoolbook convolution. -/
def Polynomial.mul (p other : Polynomial) : Polynomial :=
  if p.is_zero ∨ other.is_zero then Polynomial.zero 0
  else ⟨mulRaw p.coefficients other.coefficients⟩

/-- Embeds `Polynomial::scalar_mul`. -/
def Polynomial.scalar_mul (p : Polynomial) (scalar : ℤ) : Polynomial :=
  ⟨p.coefficients.map (fun x => x * scalar)⟩

/-- One guarded update `remainder[i + j] -= divisor[j] * coeff` of the
division loop: a write happens only when the index is in range. -/
def subOnce (rem : List ℤ) (k : Nat) (v : ℤ) : List ℤ :=
  if k < rem.length then rem.set k (rem.getD k 0 - v) else rem

/-- Inner loop of `Polynomial::div`: subtract `divisor[j] * coeff` at
position `i + j` for every `j` below the divisor length. -/
def subtractStep (d : List ℤ) (i : Nat) (coeff : ℤ) (rem : List ℤ) : List ℤ :=
  (List.range d.length).foldl (fun r j => subOnce r (i + j) (d.getD j 0 * coeff)) rem

/-- Main loop of `Polynomial::div` (`for i in 0..quotient.len()`), with
the fuel argument counting the remaining iterations.  Rust `BigInt`
division truncates toward zero, hence `Int.tdiv`. -/
def divLoop (d : List ℤ) : Nat → Nat → List ℤ → List ℤ → List ℤ × List ℤ
  | 0, _, q, rem => (q, rem)
  | k + 1, i, q, rem =>
    if rem.length ≤ i then (q, rem)
    else
      let coeff := Int.tdiv (rem.getD i 0) (d.getD 0 0)
      divLoop d k (i + 1) (q.set i coeff) (subtractStep d i coeff rem)

/-- Embeds `Polynomial::div`.  The quotient length `len(a) - len(divisor) + 1`
is computed here as `len(a) + 1 - len(divisor)` over `Nat`, which agrees
with the source's `usize` value in every reachable case (past the guards
the divisor is non-empty and `len(divisor) ≤ len(a) + 1`).  The final
remainder trimming (`while non-empty and front is zero, remove front`)
is `dropWhile`. -/
def Polynomial.div (p divisor : Polynomial) :
    Except PolynomialError (Polynomial × Polynomial) :=
  if divisor.is_zero then .error .DivisionByZero
  else if divisor.coefficients.isEmpty ∨ divisor.coefficients.getD 0 0 = 0 then
    .error (.InvalidPolynomial "Leading coefficient of divisor cannot be zero")
  else if p.degree < divisor.degree then .ok (Polynomial.zero 0, p)
  else
    let qlen := p.coefficients.length + 1 - divisor.coefficients.length
    let res := divLoop divisor.coefficients qlen 0 (List.replicate qlen 0) p.coefficients
    .ok (⟨res.1⟩, ⟨res.2.dropWhile (fun c => decide (c = 0))⟩)

/-- Embeds `out[startIdx..endIdx].clone_from_slice(&src[..endIdx - startIdx])`:
replace the slice of `out` between the two indices by the front of `src`. -/
def setSlice (out : List ℤ) (startIdx endIdx : Nat) (src : List ℤ) : List ℤ :=
  out.take startIdx ++ src.take (endIdx - startIdx) ++ out.drop endIdx

/-- Embeds `Polynomial::reduce_by_cyclotomic`. -/
def Polynomial.reduce_by_cyclotomic (p : Polynomial) (cyclo : List ℤ) :
    Except PolynomialError Polynomial :=
  match p.div (Polynomial.new cyclo) with
  | .error e => .error e
  | .ok (_, remainder) =>
    let n := cyclo.length - 1
    let out := List.replicate n (0 : ℤ)
    if remainder.coefficients.isEmpty then .ok ⟨out⟩
    else
      let startIdx := n - remainder.coefficients.length
      let endIdx := min (startIdx + remainder.coefficients.length) n
      .ok ⟨setSlice out startIdx endIdx remainder.coefficients⟩

/-- Embeds `Polynomial::evaluate` (Horner's method). -/
def Polynomial.evaluate (p : Polynomial) (x : ℤ) : ℤ :=
  match p.coefficients with
  | [] => 0
  | c :: rest => rest.foldl (fun result coeff => result * x + coeff) c

/-- Modelled from the spec: `reduce_scalar(x, m)` from the missing
source file `src/utils.rs` — the non-negative representative `r` with
`0 ≤ r < m` and `r ≡ x (mod m)` under floor/Euclidean semantics
(Lean's `%` on `ℤ` is `Int.emod`, which has exactly this behaviour for
a positive modulus). -/
def reduce_scalar (x m : ℤ) : ℤ :=
  x % m

/-- Modelled from the spec: `reduce_and_center_scalar(x, m)` from the
missing source file `src/utils.rs` — let `r = reduce_scalar(x, m)` and
`h = floor(m / 2)`; if `r > h` return `r - m`, else return `r`. -/
def reduce_and_center_scalar (x m : ℤ) : ℤ :=
  let r := reduce_scalar x m
  let h := m / 2
  if r > h then r - m else r

/-- Modelled from the spec: `reduce_and_center(x, m, half_m)` from the
missing source file `src/utils.rs` — identical centering logic with a
precomputed half-modulus. -/
def reduce_and_center (x m half_m : ℤ) : ℤ :=
  let r := x % m
  if r > half_m then r - m else r

/-- Embeds `Polynomial::reduce_and_center`: centering mapped over every
coefficient, with `half_modulus = modulus / 2` computed once. -/
def Polynomial.reduce_and_center (p : Polynomial) (modulus : ℤ) : Polynomial :=
  let half_modulus := modulus / 2
  ⟨p.coefficients.map (fun x => BigintPoly.reduce_and_center x modulus half_modulus)⟩

/-- The body written for the term of one nonzero coefficient in
`impl fmt::Display for Polynomial`: the absolute coefficient unless it
is a 1 at positive degree, then the indeterminate and its exponent. -/
def termBody (coeff : ℤ) (degree : Nat) : String :=
  let absCoeff := if coeff < 0 then -coeff else coeff
  (if degree = 0 ∨ absCoeff ≠ 1 then toString absCoeff else "") ++
  (if 0 < degree then "x" ++ (if 1 < degree then "^" ++ toString degree else "") else "")

/-- The rendering loop of `impl fmt::Display for Polynomial`: iterate
over the indexed coefficients, skip zeros, emit a sign separator for
every term after the first, and fall back to `"0"` when no term was
emitted. -/
def displayAux (len : Nat) : List (Nat × ℤ) → String → Bool → String
  | [], acc, first => if first then acc ++ "0" else acc
  | (i, c) :: rest, acc, first =>
    if c = 0 then displayAux len rest acc first
    else displayAux len rest
      (acc ++ (if first then "" else if 0 < c then " + " else " - ") ++
        termBody c (len - 1 - i))
      false

/-- Embeds `impl fmt::Display for Polynomial`, as a function to `String`. -/
def Polynomial.toDisplayString (p : Polynomial) : String :=
  if p.coefficients.isEmpty then "0"
  else displayAux p.coefficients.length p.coefficients.enum "" true

/-! ### Specification-side definitions used to state claims -/

/-- The coefficient of ascending degree `k` of a descending coefficient
vector (absent high-degree coefficients count as zero). -/
def coeffAt (l : List ℤ) (k : Nat) : ℤ :=
  if k < l.length then l.getD (l.length - 1 - k) 0 else 0

/-- The schoolbook convolution coefficient
`∑ i, a[i] * b[m - i]` at descending position `m`. -/
def convAt (a b : List ℤ) (m : Nat) : ℤ :=
  ∑ i ∈ Finset.range a.length,
    if i ≤ m ∧ m < i + b.length then a.getD i 0 * b.getD (m - i) 0 else 0

/-- The nonzero `(degree, coefficient)` terms of a descending
coefficient vector, highest degree first. -/
def nonzeroTerms (coeffs : List ℤ) : List (Nat × ℤ) :=
  (coeffs.enum.filter (fun t => decide (t.2 ≠ 0))).map
    (fun t => (coeffs.length - 1 - t.1, t.2))

/-- Rendering of all terms after the first: each is joined by `" + "`
for a positive coefficient and `" - "` for a negative one. -/
def joinTail : List (Nat × ℤ) → String
  | [] => ""
  | t :: rest => (if 0 < t.2 then " + " else " - ") ++ termBody t.2 t.1 ++ joinTail rest

/-- Rendering of a term list: the first term carries no sign prefix,
later terms are joined with the sign separators; no terms at all render
as `"0"`. -/
def renderTerms : List (Nat × ℤ) → String
  | [] => "0"
  | t :: rest => termBody t.2 t.1 ++ joinTail rest

/-- The specification's description of the textual rendering: skip zero
coefficients, join the nonzero terms with sign-aware separators, and
render an all-zero polynomial as `"0"`. -/
def specRender (coeffs : List ℤ) : String :=
  renderTerms (nonzeroTerms coeffs)

/-- Tests for an `InvalidPolynomial` error outcome. -/
def isInvalidPolynomial {α : Type} : Except PolynomialError α → Bool
  | .error (.InvalidPolynomial _) => true
  | _ => false

/-- The division loop with every bounds guard turned into a hard
failure: `none` as soon as the early `break` would trigger, a quotient
write would be out of range, or any `remainder[i + j]` update would be
skipped by its range guard. -/
def divLoopStrict (d : List ℤ) : Nat → Nat → List ℤ → List ℤ → Option (List ℤ × List ℤ)
  | 0, _, q, rem => some (q, rem)
  | k + 1, i, q, rem =>
    if i < rem.length ∧ i < q.length ∧ ∀ j < d.length, i + j < rem.length then
      let coeff := Int.tdiv (rem.getD i 0) (d.getD 0 0)
      divLoopStrict d k (i + 1) (q.set i coeff) (subtractStep d i coeff rem)
    else none

/-! ### Basic lemmas about the list helpers -/

theorem getD_set (l : List ℤ) (i : Nat) (v : ℤ) (m : Nat) :
    (l.set i v).getD m 0 = if m = i ∧ i < l.length then v else l.getD m 0 := by
  induction l generalizing i m with
  | nil => simp [List.getD]
  | cons hd tl ih =>
    cases i with
    | zero =>
      cases m with
      | zero => simp
      | succ m => simp
    | succ i =>
      cases m with
      | zero => simp
      | succ m =>
        simp only [List.set_cons_succ, List.getD_cons_succ, List.length_cons, ih]
        by_cases h : m = i ∧ i < tl.length
        · rw [if_pos h, if_pos (by omega : m + 1 = i + 1 ∧ i + 1 < tl.length + 1)]
        · rw [if_neg h, if_neg (by omega : ¬(m + 1 = i + 1 ∧ i + 1 < tl.length + 1))]

theorem getD_replicate (n m : Nat) : (List.replicate n (0 : ℤ)).getD m 0 = 0 := by
  induction n generalizing m with
  | zero => simp [List.getD]
  | succ n ih =>
    cases m with
    | zero => simp [List.replicate_succ]
    | succ m => simp [List.replicate_succ, ih]

theorem length_addAt (l : List ℤ) (k : Nat) (x : ℤ) : (addAt l k x).length = l.length := by
  simp [addAt]

theorem getD_addAt (l : List ℤ) (k : Nat) (x : ℤ) (m : Nat) :
    (addAt l k x).getD m 0 = l.getD m 0 + if m = k ∧ k < l.length then x else 0 := by
  unfold addAt
  rw [getD_set]
  by_cases h : m = k ∧ k < l.length
  · rcases h with ⟨rfl, h2⟩
    simp [h2]
  · simp [h]

theorem foldl_length_eq {β : Type} (f : List ℤ → β → List ℤ)
    (h : ∀ acc x, (f acc x).length = acc.length) :
    ∀ (js : List β) (l : List ℤ), (js.foldl f l).length = l.length := by
  intro js
  induction js with
  | nil => intro l; rfl
  | cons j js ih => intro l; rw [List.foldl_cons, ih, h]

theorem foldlAdd_getD (b : Nat → ℤ) (c : Nat) :
    ∀ (n : Nat) (l : List ℤ) (m : Nat), c + n ≤ l.length →
      ((List.range n).foldl (fun acc j => addAt acc (c + j) (b j)) l).getD m 0
        = l.getD m 0 + if c ≤ m ∧ m < c + n then b (m - c) else 0 := by
  intro n
  induction n with
  | zero =>
    intro l m _
    rw [List.range_zero, List.foldl_nil, if_neg (by omega : ¬(c ≤ m ∧ m < c + 0)), add_zero]
  | succ n ih =>
    intro l m hlen
    rw [List.range_succ, List.foldl_append, List.foldl_cons, List.foldl_nil, getD_addAt]
    have hfl : ((List.range n).foldl (fun acc j => addAt acc (c + j) (b j)) l).length
        = l.length :=
      foldl_length_eq _ (fun acc x => length_addAt acc _ _) _ l
    rw [hfl, ih l m (by omega)]
    by_cases h1 : m = c + n
    · subst h1
      rw [if_neg (by omega : ¬(c ≤ c + n ∧ c + n < c + n)),
        if_pos (⟨rfl, by omega⟩ : c + n = c + n ∧ c + n < l.length),
        if_pos (by omega : c ≤ c + n ∧ c + n < c + (n + 1)),
        (by omega : c + n - c = n)]
      ring
    · rw [if_neg (by omega : ¬(m = c + n ∧ c + n < l.length))]
      by_cases h2 : c ≤ m ∧ m < c + n
      · rw [if_pos h2, if_pos (by omega : c ≤ m ∧ m < c + (n + 1))]
        ring
      · rw [if_neg h2, if_neg (by omega : ¬(c ≤ m ∧ m < c + (n + 1)))]
        ring

theorem foldlSet_getD (b : Nat → ℤ) (c : Nat) :
    ∀ (n : Nat) (l : List ℤ) (m : Nat), c + n ≤ l.length →
      ((List.range n).foldl (fun acc j => acc.set (c + j) (b j)) l).getD m 0
        = if c ≤ m ∧ m < c + n then b (m - c) else l.getD m 0 := by
  intro n
  induction n with
  | zero =>
    intro l m _
    rw [List.range_zero, List.foldl_nil, if_neg (by omega : ¬(c ≤ m ∧ m < c + 0))]
  | succ n ih =>
    intro l m hlen
    rw [List.range_succ, List.foldl_append, List.foldl_cons, List.foldl_nil, getD_set]
    have hfl : ((List.range n).foldl (fun acc j => acc.set (c + j) (b j)) l).length
        = l.length :=
      foldl_length_eq _ (fun acc x => by simp) _ l
    rw [hfl, ih l m (by omega)]
    by_cases h1 : m = c + n
    · subst h1
      rw [if_pos (⟨rfl, by omega⟩ : c + n = c + n ∧ c + n < l.length),
        if_pos (by omega : c ≤ c + n ∧ c + n < c + (n + 1)),
        (by omega : c + n - c = n)]
    · rw [if_neg (by omega : ¬(m = c + n ∧ c + n < l.length))]
      by_cases h2 : c ≤ m ∧ m < c + n
      · rw [if_pos h2, if_pos (by omega : c ≤ m ∧ m < c + (n + 1))]
      · rw [if_neg h2, if_neg (by omega : ¬(c ≤ m ∧ m < c + (n + 1)))]

theorem coeffAt_oob (l : List ℤ) (k : Nat) (h : l.length ≤ k) : coeffAt l k = 0 := by
  unfold coeffAt
  rw [if_neg (by omega : ¬ k < l.length)]

theorem coeffAt_cons (x : ℤ) (l : List ℤ) (k : Nat) :
    coeffAt (x :: l) k = if k = l.length then x else coeffAt l k := by
  unfold coeffAt
  by_cases h : k = l.length
  · subst h
    rw [if_pos (by simp : l.length < (x :: l).length),
      (by simp : (x :: l).length - 1 - l.length = 0), List.getD_cons_zero, if_pos rfl]
  · by_cases h2 : k < l.length
    · have h3 : k < (x :: l).length := by simp; omega
      rw [if_pos h3, if_pos h2, if_neg h,
        (by simp; omega : (x :: l).length - 1 - k = l.length - 1 - k + 1),
        List.getD_cons_succ]
    · have h3 : ¬ k < (x :: l).length := by simp; omega
      rw [if_neg h3, if_neg h2, if_neg h]

theorem coeffAt_zeros_append (pre suf : List ℤ) (hpre : ∀ z ∈ pre, z = 0) (k : Nat) :
    coeffAt (pre ++ suf) k = coeffAt suf k := by
  induction pre with
  | nil => simp
  | cons z pre ih =>
    have hz : z = 0 := hpre z (by simp)
    have ih' := ih (fun w hw => hpre w (by simp [hw]))
    rw [List.cons_append, coeffAt_cons, ih']
    by_cases h : k = (pre ++ suf).length
    · rw [if_pos h, hz, coeffAt_oob suf k (by rw [h]; simp)]
    · rw [if_neg h]

theorem is_zero_iff (p : Polynomial) :
    p.is_zero = true ↔ ∀ c ∈ p.coefficients, c = 0 := by
  unfold Polynomial.is_zero
  rw [List.all_eq_true]
  simp

theorem getD_all_zero (l : List ℤ) (h : ∀ c ∈ l, c = 0) (m : Nat) : l.getD m 0 = 0 := by
  induction l generalizing m with
  | nil => simp [List.getD]
  | cons hd tl ih =>
    cases m with
    | zero => simpa using h hd (by simp)
    | succ m =>
      rw [List.getD_cons_succ]
      exact ih (fun c hc => h c (by simp [hc])) m

theorem set_oob (l : List ℤ) (k : Nat) (v : ℤ) (h : l.length ≤ k) : l.set k v = l := by
  induction l generalizing k with
  | nil => rfl
  | cons hd tl ih =>
    cases k with
    | zero => simp at h
    | succ k => rw [List.set_cons_succ, ih k (by simpa using h)]

/-! ### Addition: length and pointwise characterization -/

theorem length_addCoeffs (a b : List ℤ) :
    (addCoeffs a b).length = max a.length b.length := by
  unfold addCoeffs
  rw [foldl_length_eq _ (fun acc x => length_addAt acc _ _),
    foldl_length_eq _ (fun acc x => by simp), List.length_replicate]

theorem getD_addCoeffs (a b : List ℤ) (m : Nat) :
    (addCoeffs a b).getD m 0 =
      (if max a.length b.length - a.length ≤ m ∧ m < max a.length b.length
        then a.getD (m - (max a.length b.length - a.length)) 0 else 0) +
      (if max a.length b.length - b.length ≤ m ∧ m < max a.length b.length
        then b.getD (m - (max a.length b.length - b.length)) 0 else 0) := by
  have hla : a.length ≤ max a.length b.length := le_max_left _ _
  have hlb : b.length ≤ max a.length b.length := le_max_right _ _
  unfold addCoeffs
  simp only
  have h1len : ((List.range a.length).foldl
      (fun res i => res.set (max a.length b.length - a.length + i) (a.getD i 0))
      (List.replicate (max a.length b.length) 0)).length = max a.length b.length := by
    rw [foldl_length_eq _ (fun acc x => by simp), List.length_replicate]
  rw [foldlAdd_getD _ _ _ _ m (by rw [h1len]; omega),
    foldlSet_getD _ _ _ _ m (by rw [List.length_replicate]; omega),
    getD_replicate,
    (by omega : max a.length b.length - a.length + a.length = max a.length b.length),
    (by omega : max a.length b.length - b.length + b.length = max a.length b.length)]

theorem coeffAt_addCoeffs (a b : List ℤ) (k : Nat) :
    coeffAt (addCoeffs a b) k = coeffAt a k + coeffAt b k := by
  by_cases hk : k < max a.length b.length
  · have hla : a.length ≤ max a.length b.length := le_max_left _ _
    have hlb : b.length ≤ max a.length b.length := le_max_right _ _
    have hmain : coeffAt (addCoeffs a b) k
        = (addCoeffs a b).getD (max a.length b.length - 1 - k) 0 := by
      unfold coeffAt
      rw [length_addCoeffs, if_pos hk]
    rw [hmain, getD_addCoeffs]
    have h1 : (if max a.length b.length - a.length ≤ max a.length b.length - 1 - k ∧
          max a.length b.length - 1 - k < max a.length b.length
        then a.getD (max a.length b.length - 1 - k - (max a.length b.length - a.length)) 0
        else 0) = coeffAt a k := by
      unfold coeffAt
      by_cases h : k < a.length
      · rw [if_pos (by omega), if_pos h,
          (by omega : max a.length b.length - 1 - k - (max a.length b.length - a.length)
            = a.length - 1 - k)]
      · rw [if_neg (by omega), if_neg h]
    have h2 : (if max a.length b.length - b.length ≤ max a.length b.length - 1 - k ∧
          max a.length b.length - 1 - k < max a.length b.length
        then b.getD (max a.length b.length - 1 - k - (max a.length b.length - b.length)) 0
        else 0) = coeffAt b k := by
      unfold coeffAt
      by_cases h : k < b.length
      · rw [if_pos (by omega), if_pos h,
          (by omega : max a.length b.length - 1 - k - (max a.length b.length - b.length)
            = b.length - 1 - k)]
      · rw [if_neg (by omega), if_neg h]
    rw [h1, h2]
  · rw [coeffAt_oob _ _ (by rw [length_addCoeffs]; omega),
      coeffAt_oob a k (by omega), coeffAt_oob b k (by omega)]
    ring

/-! ### Multiplication: length and convolution characterization -/

theorem length_mulRaw (a b : List ℤ) :
    (mulRaw a b).length = a.length + b.length - 1 := by
  unfold mulRaw
  rw [foldl_length_eq _ (fun acc i =>
      foldl_length_eq _ (fun acc2 j => length_addAt acc2 _ _) _ acc),
    List.length_replicate]

theorem mulRaw_outer_sum (a b : List ℤ) (hb : 1 ≤ b.length) :
    ∀ (n : Nat), n ≤ a.length → ∀ (l : List ℤ), l.length = a.length + b.length - 1 →
    ∀ m, ((List.range n).foldl
        (fun prod i => (List.range b.length).foldl
          (fun prod j => addAt prod (i + j) (a.getD i 0 * b.getD j 0)) prod) l).getD m 0
      = l.getD m 0 + ∑ i ∈ Finset.range n,
          (if i ≤ m ∧ m < i + b.length then a.getD i 0 * b.getD (m - i) 0 else 0) := by
  intro n
  induction n with
  | zero => intro _ l _ m; simp
  | succ n ih =>
    intro hn l hl m
    rw [List.range_succ, List.foldl_append, List.foldl_cons, List.foldl_nil]
    have hflen : ((List.range n).foldl
        (fun prod i => (List.range b.length).foldl
          (fun prod j => addAt prod (i + j) (a.getD i 0 * b.getD j 0)) prod) l).length
        = l.length :=
      foldl_length_eq _ (fun acc i =>
        foldl_length_eq _ (fun acc2 j => length_addAt acc2 _ _) _ acc) _ l
    rw [foldlAdd_getD _ _ _ _ m (by rw [hflen, hl]; omega),
      ih (by omega) l hl m, Finset.sum_range_succ]
    ring

theorem getD_mulRaw (a b : List ℤ) (hb : 1 ≤ b.length) (m : Nat) :
    (mulRaw a b).getD m 0 = convAt a b m := by
  unfold mulRaw convAt
  rw [mulRaw_outer_sum a b hb a.length le_rfl _ (by rw [List.length_replicate]) m,
    getD_replicate, zero_add]

theorem convAt_oob (a b : List ℤ) (m : Nat) (h : a.length + b.length - 1 ≤ m) :
    convAt a b m = 0 := by
  unfold convAt
  apply Finset.sum_eq_zero
  intro i hi
  rw [Finset.mem_range] at hi
  rw [if_neg (by omega)]

theorem convAt_zero_right (a b : List ℤ) (hb : ∀ c ∈ b, c = 0) (m : Nat) :
    convAt a b m = 0 := by
  unfold convAt
  apply Finset.sum_eq_zero
  intro i _
  by_cases h : i ≤ m ∧ m < i + b.length
  · rw [if_pos h, getD_all_zero b hb, mul_zero]
  · rw [if_neg h]

theorem convAt_set (d q : List ℤ) (i : Nat) (v : ℤ) (m : Nat)
    (hi : i < q.length) (hqi : q.getD i 0 = 0) :
    convAt d (q.set i v) m
      = convAt d q m + (if i ≤ m ∧ m < i + d.length then d.getD (m - i) 0 * v else 0) := by
  unfold convAt
  rw [List.length_set]
  by_cases hc : i ≤ m ∧ m < i + d.length
  · rw [if_pos hc]
    have hmem : m - i ∈ Finset.range d.length := Finset.mem_range.mpr (by omega)
    rw [← Finset.sum_erase_add _ _ hmem, ← Finset.sum_erase_add _ _ hmem]
    have hsum : ∑ j ∈ (Finset.range d.length).erase (m - i),
          (if j ≤ m ∧ m < j + q.length then d.getD j 0 * (q.set i v).getD (m - j) 0 else 0)
        = ∑ j ∈ (Finset.range d.length).erase (m - i),
          (if j ≤ m ∧ m < j + q.length then d.getD j 0 * q.getD (m - j) 0 else 0) := by
      apply Finset.sum_congr rfl
      intro j hj
      have hj2 : j ≠ m - i := (Finset.mem_erase.mp hj).1
      have hj3 : j < d.length := Finset.mem_range.mp (Finset.mem_erase.mp hj).2
      by_cases hg : j ≤ m ∧ m < j + q.length
      · rw [if_pos hg, if_pos hg, getD_set, if_neg (by omega : ¬(m - j = i ∧ i < q.length))]
      · rw [if_neg hg, if_neg hg]
    rw [hsum]
    have hg : m - i ≤ m ∧ m < (m - i) + q.length := by omega
    rw [if_pos hg, if_pos hg, getD_set, if_pos (by omega : m - (m - i) = i ∧ i < q.length),
      (by omega : m - (m - i) = i), hqi, mul_zero]
    ring
  · rw [if_neg hc, add_zero]
    apply Finset.sum_congr rfl
    intro j hj
    have hj3 : j < d.length := Finset.mem_range.mp hj
    by_cases hg : j ≤ m ∧ m < j + q.length
    · rw [if_pos hg, if_pos hg, getD_set, if_neg (by omega : ¬(m - j = i ∧ i < q.length))]
    · rw [if_neg hg, if_neg hg]

/-! ### Division loop lemmas -/

theorem subOnce_eq_addAt (rem : List ℤ) (k : Nat) (v : ℤ) :
    subOnce rem k v = addAt rem k (-v) := by
  unfold subOnce addAt
  by_cases h : k < rem.length
  · rw [if_pos h, sub_eq_add_neg]
  · rw [if_neg h, set_oob _ _ _ (by omega)]

theorem length_subtractStep (d : List ℤ) (i : Nat) (coeff : ℤ) (rem : List ℤ) :
    (subtractStep d i coeff rem).length = rem.length := by
  unfold subtractStep
  exact foldl_length_eq _
    (fun acc j => by rw [subOnce_eq_addAt]; exact length_addAt acc _ _) _ rem

theorem getD_subtractStep (d : List ℤ) (i : Nat) (coeff : ℤ) (rem : List ℤ)
    (h : i + d.length ≤ rem.length) (m : Nat) :
    (subtractStep d i coeff rem).getD m 0
      = rem.getD m 0 - (if i ≤ m ∧ m < i + d.length then d.getD (m - i) 0 * coeff else 0) := by
  unfold subtractStep
  simp only [subOnce_eq_addAt]
  rw [foldlAdd_getD (fun j => -(d.getD j 0 * coeff)) i d.length rem m h]
  by_cases hc : i ≤ m ∧ m < i + d.length
  · rw [if_pos hc, if_pos hc]
    ring
  · rw [if_neg hc, if_neg hc]
    ring

theorem divLoop_succ (d : List ℤ) (k i : Nat) (q rem : List ℤ) :
    divLoop d (k + 1) i q rem
      = if rem.length ≤ i then (q, rem)
        else divLoop d k (i + 1) (q.set i (Int.tdiv (rem.getD i 0) (d.getD 0 0)))
          (subtractStep d i (Int.tdiv (rem.getD i 0) (d.getD 0 0)) rem) := rfl

theorem divLoop_lengths (d : List ℤ) :
    ∀ (k i : Nat) (q rem : List ℤ),
      (divLoop d k i q rem).1.length = q.length ∧
      (divLoop d k i q rem).2.length = rem.length := by
  intro k
  induction k with
  | zero => intro i q rem; exact ⟨rfl, rfl⟩
  | succ k ih =>
    intro i q rem
    rw [divLoop_succ]
    by_cases h : rem.length ≤ i
    · rw [if_pos h]
      exact ⟨rfl, rfl⟩
    · rw [if_neg h]
      rcases ih (i + 1) (q.set i (Int.tdiv (rem.getD i 0) (d.getD 0 0)))
        (subtractStep d i (Int.tdiv (rem.getD i 0) (d.getD 0 0)) rem) with ⟨h1, h2⟩
      rw [h1, h2, List.length_set, length_subtractStep]
      exact ⟨rfl, rfl⟩

theorem divLoop_spec (d : List ℤ) (hd : 1 ≤ d.length) :
    ∀ (k i : Nat) (q rem : List ℤ),
      i + k = q.length →
      q.length + d.length = rem.length + 1 →
      (∀ t, i ≤ t → q.getD t 0 = 0) →
      ∀ m, m < rem.length →
        (divLoop d k i q rem).2.getD m 0 + convAt d (divLoop d k i q rem).1 m
          = rem.getD m 0 + convAt d q m := by
  intro k
  induction k with
  | zero => intro i q rem _ _ _ m _; rfl
  | succ k ih =>
    intro i q rem hik hlen hq m hm
    have hi : i < rem.length := by omega
    rw [divLoop_succ, if_neg (by omega : ¬ rem.length ≤ i)]
    have hstep := ih (i + 1) (q.set i (Int.tdiv (rem.getD i 0) (d.getD 0 0)))
      (subtractStep d i (Int.tdiv (rem.getD i 0) (d.getD 0 0)) rem)
      (by rw [List.length_set]; omega)
      (by rw [List.length_set, length_subtractStep]; omega)
      (fun t ht => by
        rw [getD_set, if_neg (by omega : ¬(t = i ∧ i < q.length))]
        exact hq t (by omega))
      m (by rw [length_subtractStep]; omega)
    rw [hstep,
      getD_subtractStep d i (Int.tdiv (rem.getD i 0) (d.getD 0 0)) rem (by omega) m,
      convAt_set d q i (Int.tdiv (rem.getD i 0) (d.getD 0 0)) m (by omega) (hq i le_rfl)]
    ring

theorem divLoopStrict_succ (d : List ℤ) (k i : Nat) (q rem : List ℤ) :
    divLoopStrict d (k + 1) i q rem
      = if i < rem.length ∧ i < q.length ∧ ∀ j < d.length, i + j < rem.length then
          divLoopStrict d k (i + 1) (q.set i (Int.tdiv (rem.getD i 0) (d.getD 0 0)))
            (subtractStep d i (Int.tdiv (rem.getD i 0) (d.getD 0 0)) rem)
        else none := rfl

theorem divLoopStrict_eq_divLoop (d : List ℤ) (hd : 1 ≤ d.length) :
    ∀ (k i : Nat) (q rem : List ℤ),
      i + k = q.length →
      q.length + d.length = rem.length + 1 →
      divLoopStrict d k i q rem = some (divLoop d k i q rem) := by
  intro k
  induction k with
  | zero => intro i q rem _ _; rfl
  | succ k ih =>
    intro i q rem hik hlen
    have hi : i < rem.length := by omega
    rw [divLoopStrict_succ, divLoop_succ,
      if_pos (⟨hi, by omega, fun j hj => by omega⟩ :
        i < rem.length ∧ i < q.length ∧ ∀ j < d.length, i + j < rem.length),
      if_neg (by omega : ¬ rem.length ≤ i)]
    exact ih (i + 1) _ _ (by rw [List.length_set]; omega)
      (by rw [List.length_set, length_subtractStep]; omega)

/-! ### Division: branch characterizations -/

/-- The (quotient, remainder) pair computed by the main branch of `div`,
before the remainder's leading zeros are stripped. -/
def divQuotRem (p d : Polynomial) : List ℤ × List ℤ :=
  divLoop d.coefficients (p.coefficients.length + 1 - d.coefficients.length) 0
    (List.replicate (p.coefficients.length + 1 - d.coefficients.length) 0) p.coefficients

theorem is_zero_false_nonempty (p : Polynomial) (h : p.is_zero = false) :
    p.coefficients ≠ [] := by
  intro he
  unfold Polynomial.is_zero at h
  rw [he] at h
  simp at h

theorem coeffAt_all_zero (l : List ℤ) (h : ∀ c ∈ l, c = 0) (k : Nat) : coeffAt l k = 0 := by
  unfold coeffAt
  by_cases hk : k < l.length
  · rw [if_pos hk, getD_all_zero l h]
  · rw [if_neg hk]

theorem coeffAt_dropWhile_zero (l : List ℤ) (k : Nat) :
    coeffAt (l.dropWhile (fun c => decide (c = 0))) k = coeffAt l k := by
  conv_rhs => rw [← List.takeWhile_append_dropWhile (p := fun c => decide (c = 0)) (l := l)]
  rw [coeffAt_zeros_append]
  intro z hz
  have := List.mem_takeWhile_imp hz
  simpa using this

theorem div_eq_divByZero (p d : Polynomial) (hz : d.is_zero = true) :
    p.div d = .error .DivisionByZero := by
  unfold Polynomial.div
  rw [if_pos hz]

theorem div_eq_invalid (p d : Polynomial) (hz : d.is_zero = false)
    (hl : d.coefficients.getD 0 0 = 0) :
    p.div d = .error (.InvalidPolynomial "Leading coefficient of divisor cannot be zero") := by
  unfold Polynomial.div
  rw [if_neg (by simp [hz]), if_pos (Or.inr hl)]

theorem div_eq_early (p d : Polynomial) (hz : d.is_zero = false)
    (hl : d.coefficients.getD 0 0 ≠ 0) (hdeg : p.degree < d.degree) :
    p.div d = .ok (Polynomial.zero 0, p) := by
  have hne : d.coefficients ≠ [] := is_zero_false_nonempty d hz
  unfold Polynomial.div
  rw [if_neg (by simp [hz]),
    if_neg (by simpa [List.isEmpty_iff, hne] using hl), if_pos hdeg]

theorem div_eq_main (p d : Polynomial) (hz : d.is_zero = false)
    (hl : d.coefficients.getD 0 0 ≠ 0) (hdeg : ¬ p.degree < d.degree) :
    p.div d = .ok
      (⟨(divQuotRem p d).1⟩,
        ⟨(divQuotRem p d).2.dropWhile (fun c => decide (c = 0))⟩) := by
  have hne : d.coefficients ≠ [] := is_zero_false_nonempty d hz
  unfold Polynomial.div
  rw [if_neg (by simp [hz]),
    if_neg (by simpa [List.isEmpty_iff, hne] using hl), if_neg hdeg]
  rfl

theorem main_branch_arith (p d : Polynomial) (hz : d.is_zero = false)
    (hdeg : ¬ p.degree < d.degree) :
    1 ≤ d.coefficients.length ∧
    d.coefficients.length ≤ p.coefficients.length + 1 := by
  have hne : d.coefficients ≠ [] := is_zero_false_nonempty d hz
  have h1 : 1 ≤ d.coefficients.length := by
    cases hh : d.coefficients with
    | nil => exact absurd hh hne
    | cons x xs => simp
  refine ⟨h1, ?_⟩
  have hdne : d.coefficients.isEmpty = false := by
    cases hh : d.coefficients with
    | nil => exact absurd hh hne
    | cons x xs => rfl
  unfold Polynomial.degree at hdeg
  rw [if_neg (show ¬(d.coefficients.isEmpty = true) by rw [hdne]; simp)] at hdeg
  by_cases hp : p.coefficients.isEmpty = true
  · rw [if_pos hp] at hdeg
    have hpl : p.coefficients = [] := by simpa [List.isEmpty_iff] using hp
    rw [hpl]
    simp only [List.length_nil]
    omega
  · rw [if_neg hp] at hdeg
    have hpl : p.coefficients ≠ [] := by simpa [List.isEmpty_iff] using hp
    have : 1 ≤ p.coefficients.length := by
      cases hh : p.coefficients with
      | nil => exact absurd hh hpl
      | cons x xs => simp
    omega

theorem divQuotRem_lengths (p d : Polynomial) :
    (divQuotRem p d).1.length = p.coefficients.length + 1 - d.coefficients.length ∧
    (divQuotRem p d).2.length = p.coefficients.length := by
  unfold divQuotRem
  rcases divLoop_lengths d.coefficients
    (p.coefficients.length + 1 - d.coefficients.length) 0
    (List.replicate (p.coefficients.length + 1 - d.coefficients.length) 0)
    p.coefficients with ⟨h1, h2⟩
  rw [h1, h2, List.length_replicate]
  exact ⟨rfl, rfl⟩

theorem divQuotRem_invariant (p d : Polynomial) (hz : d.is_zero = false)
    (hdeg : ¬ p.degree < d.degree) :
    ∀ m, m < p.coefficients.length →
      (divQuotRem p d).2.getD m 0 + convAt d.coefficients (divQuotRem p d).1 m
        = p.coefficients.getD m 0 := by
  obtain ⟨hd1, hd2⟩ := main_branch_arith p d hz hdeg
  intro m hm
  unfold divQuotRem
  have h := divLoop_spec d.coefficients hd1
    (p.coefficients.length + 1 - d.coefficients.length) 0
    (List.replicate (p.coefficients.length + 1 - d.coefficients.length) 0)
    p.coefficients
    (by rw [List.length_replicate]; omega)
    (by rw [List.length_replicate]; omega)
    (fun t _ => getD_replicate _ t)
    m hm
  rw [convAt_zero_right d.coefficients
      (List.replicate (p.coefficients.length + 1 - d.coefficients.length) 0)
      (fun c hc => List.eq_of_mem_replicate hc) m, add_zero] at h
  exact h

/-- C2 helper: pointwise form of the division identity. -/
theorem div_identity_coeffAt (p d q r : Polynomial)
    (hz : d.is_zero = false) (hl : d.coefficients.getD 0 0 ≠ 0)
    (h : p.div d = .ok (q, r)) (k : Nat) :
    coeffAt ((d.mul q).add r).coefficients k = coeffAt p.coefficients k := by
  by_cases hdeg : p.degree < d.degree
  · have heq := div_eq_early p d hz hl hdeg
    have h2 := heq.symm.trans h
    rw [Except.ok.injEq, Prod.mk.injEq] at h2
    obtain ⟨hq, hr⟩ := h2
    have hqz : q.is_zero = true := by rw [← hq]; rfl
    have hmul : d.mul q = Polynomial.zero 0 := by
      unfold Polynomial.mul
      rw [if_pos (Or.inr hqz)]
    rw [hmul]
    show coeffAt (addCoeffs (Polynomial.zero 0).coefficients r.coefficients) k = _
    rw [coeffAt_addCoeffs,
      coeffAt_all_zero (Polynomial.zero 0).coefficients (by simp [Polynomial.zero]) k,
      zero_add, ← hr]
  · obtain ⟨hd1, hd2⟩ := main_branch_arith p d hz hdeg
    have heq := div_eq_main p d hz hl hdeg
    have h2 := heq.symm.trans h
    rw [Except.ok.injEq, Prod.mk.injEq] at h2
    obtain ⟨hq, hr⟩ := h2
    have hqc : q.coefficients = (divQuotRem p d).1 := by rw [← hq]
    obtain ⟨hql, hrl⟩ := divQuotRem_lengths p d
    have hinv := divQuotRem_invariant p d hz hdeg
    have hrcoeff : ∀ j, coeffAt r.coefficients j = coeffAt (divQuotRem p d).2 j := by
      intro j
      rw [← hr]
      exact coeffAt_dropWhile_zero _ j
    by_cases hqz : q.is_zero = true
    · have hconv : ∀ m, convAt d.coefficients (divQuotRem p d).1 m = 0 := by
        intro m
        apply convAt_zero_right
        intro c hc
        exact ((is_zero_iff q).mp hqz) c (by rw [hqc]; exact hc)
      have hmul : d.mul q = Polynomial.zero 0 := by
        unfold Polynomial.mul
        rw [if_pos (Or.inr hqz)]
      rw [hmul]
      show coeffAt (addCoeffs (Polynomial.zero 0).coefficients r.coefficients) k = _
      rw [coeffAt_addCoeffs,
        coeffAt_all_zero (Polynomial.zero 0).coefficients (by simp [Polynomial.zero]) k,
        zero_add, hrcoeff k]
      by_cases hk : k < p.coefficients.length
      · unfold coeffAt
        rw [hrl, if_pos hk, if_pos hk]
        have := hinv (p.coefficients.length - 1 - k) (by omega)
        rw [hconv, add_zero] at this
        rw [this]
      · rw [coeffAt_oob _ _ (by omega : p.coefficients.length ≤ k),
          coeffAt_oob _ _ (by rw [hrl]; omega)]
    · have hqne : (divQuotRem p d).1 ≠ [] := by
        intro hx
        apply hqz
        unfold Polynomial.is_zero
        rw [hqc, hx]
        rfl
      have hq1 : 1 ≤ (divQuotRem p d).1.length := by
        cases hh : (divQuotRem p d).1 with
        | nil => exact absurd hh hqne
        | cons x xs => simp
      have hmul : d.mul q = ⟨mulRaw d.coefficients q.coefficients⟩ := by
        unfold Polynomial.mul
        rw [if_neg (by simp [hz, hqz])]
      rw [hmul]
      show coeffAt (addCoeffs (mulRaw d.coefficients q.coefficients) r.coefficients) k = _
      rw [coeffAt_addCoeffs, hrcoeff k]
      have hmlen : (mulRaw d.coefficients q.coefficients).length = p.coefficients.length := by
        rw [length_mulRaw, hqc]
        omega
      by_cases hk : k < p.coefficients.length
      · have hgm := getD_mulRaw d.coefficients q.coefficients
          (by rw [hqc]; exact hq1) (p.coefficients.length - 1 - k)
        unfold coeffAt
        rw [hmlen, hrl, if_pos hk, if_pos hk, if_pos hk, hgm, hqc]
        have := hinv (p.coefficients.length - 1 - k) (by omega)
        omega
      · rw [coeffAt_oob _ _ (by rw [hmlen]; omega),
          coeffAt_oob _ _ (by rw [hrl]; omega),
          coeffAt_oob _ _ (by omega : p.coefficients.length ≤ k)]
        ring

/-! ### Trimming -/

theorem trimAux_spec (l : List ℤ) (hne : l ≠ []) :
    1 ≤ (trimAux l).length ∧
    (∃ zs, l = zs ++ trimAux l ∧ ∀ z ∈ zs, z = 0) ∧
    (1 < (trimAux l).length → (trimAux l).getD 0 0 ≠ 0) := by
  induction l with
  | nil => exact absurd rfl hne
  | cons c rest ih =>
    have hstep : trimAux (c :: rest)
        = if 0 < rest.length ∧ c = 0 then trimAux rest else c :: rest := rfl
    by_cases hc : 0 < rest.length ∧ c = 0
    · have ht : trimAux (c :: rest) = trimAux rest := by
        rw [hstep, if_pos hc]
      have hrne : rest ≠ [] := by
        intro hx
        rw [hx] at hc
        simp at hc
      obtain ⟨ih1, ⟨zs, ihz, ihz0⟩, ih3⟩ := ih hrne
      rw [ht]
      refine ⟨ih1, ⟨c :: zs, ?_, ?_⟩, ih3⟩
      · rw [List.cons_append, ← ihz]
      · intro z hz
        rcases List.mem_cons.mp hz with h | h
        · rw [h, hc.2]
        · exact ihz0 z h
    · have ht : trimAux (c :: rest) = c :: rest := by
        rw [hstep, if_neg hc]
      rw [ht]
      refine ⟨by simp, ⟨[], by simp, by simp⟩, ?_⟩
      intro hlen
      simp only [List.length_cons] at hlen
      have hcne : c ≠ 0 := by
        intro hc0
        exact hc ⟨by omega, hc0⟩
      simpa using hcne

/-! ### Claim theorems -/

/-- C1 (counterexample): a divisor with an empty coefficient sequence is
structurally zero, so `div` fails with `DivisionByZero`, not with
`InvalidPolynomial` as the claim states. -/
theorem c1_counterexample :
    (Polynomial.new [1]).div (Polynomial.new []) = .error .DivisionByZero ∧
    isInvalidPolynomial ((Polynomial.new [1]).div (Polynomial.new [])) = false :=
  ⟨rfl, rfl⟩

/-- C1 (amended): `a.div(d)` fails with `DivisionByZero` whenever `d` is
structurally zero (which includes every divisor with no coefficients),
and fails with `InvalidPolynomial` when `d` is not structurally zero and
its leading (highest-degree) coefficient is zero. -/
theorem c1_div_error_cases (a d : Polynomial) :
    (d.is_zero = true → a.div d = .error .DivisionByZero) ∧
    (d.is_zero = false → d.coefficients.getD 0 0 = 0 →
      a.div d = .error (.InvalidPolynomial "Leading coefficient of divisor cannot be zero")) :=
  ⟨fun hz => div_eq_divByZero a d hz, fun hz hl => div_eq_invalid a d hz hl⟩

theorem c1_div_error_cases_witness :
    (Polynomial.new [5]).div (Polynomial.new [0, 0]) = .error .DivisionByZero ∧
    (Polynomial.new [5]).div (Polynomial.new [0, 1]) =
      .error (.InvalidPolynomial "Leading coefficient of divisor cannot be zero") :=
  ⟨(c1_div_error_cases (Polynomial.new [5]) (Polynomial.new [0, 0])).1 rfl,
   (c1_div_error_cases (Polynomial.new [5]) (Polynomial.new [0, 1])).2 rfl rfl⟩

/-- C2: for every divisor that is not structurally zero and has a
nonzero leading coefficient, division satisfies
`divisor.mul(quotient).add(remainder)` coefficient-equals `p` after
aligning lengths at the low-degree end. -/
theorem c2_division_remainder_identity (p d q r : Polynomial)
    (hz : d.is_zero = false) (hl : d.coefficients.getD 0 0 ≠ 0)
    (h : p.div d = .ok (q, r)) :
    ∀ k, coeffAt ((d.mul q).add r).coefficients k = coeffAt p.coefficients k :=
  fun k => div_identity_coeffAt p d q r hz hl h k

theorem c2_division_remainder_identity_witness :
    (Polynomial.new [1, 5, 6]).div (Polynomial.new [1, 2])
        = .ok (Polynomial.new [1, 3], Polynomial.new []) ∧
    coeffAt (((Polynomial.new [1, 2]).mul (Polynomial.new [1, 3])).add
        (Polynomial.new [])).coefficients 1
      = coeffAt (Polynomial.new [1, 5, 6]).coefficients 1 :=
  ⟨rfl,
   c2_division_remainder_identity (Polynomial.new [1, 5, 6]) (Polynomial.new [1, 2])
     (Polynomial.new [1, 3]) (Polynomial.new []) rfl (by decide) rfl 1⟩

/-- C4 (counterexample): for `x = 4`, `m = 7` the centered value is
`-3 = -floor(m/2)`, which lies outside the claimed open-below interval
`(-floor(m/2), m - floor(m/2)]`. -/
theorem c4_counterexample :
    reduce_and_center_scalar 4 7 = -3 ∧
    ¬ (-((7 : ℤ) / 2) < reduce_and_center_scalar 4 7) := by
  constructor
  · decide
  · decide

/-- C4 (amended): for `m > 1`, `reduce_and_center_scalar(x, m)` equals
`r` when `r ≤ floor(m/2)` and `r - m` when `r > floor(m/2)`, where
`r = x mod m ∈ [0, m)`; the returned value lies in
`(floor(m/2) - m, floor(m/2)]` and is congruent to `x` modulo `m`. -/
theorem c4_reduce_and_center_scalar (x m : ℤ) (hm : 1 < m) :
    reduce_and_center_scalar x m = (if x % m > m / 2 then x % m - m else x % m) ∧
    0 ≤ x % m ∧ x % m < m ∧
    m / 2 - m < reduce_and_center_scalar x m ∧
    reduce_and_center_scalar x m ≤ m / 2 ∧
    reduce_and_center_scalar x m % m = x % m := by
  have h1 : 0 ≤ x % m := Int.emod_nonneg x (by omega)
  have h2 : x % m < m := Int.emod_lt_of_pos x (by omega)
  have h3 := Int.ediv_add_emod m 2
  have h4 : 0 ≤ m % 2 := Int.emod_nonneg m (by omega)
  have h5 : m % 2 < 2 := Int.emod_lt_of_pos m (by omega)
  have hval : reduce_and_center_scalar x m
      = if x % m > m / 2 then x % m - m else x % m := rfl
  refine ⟨hval, h1, h2, ?_, ?_, ?_⟩ <;> rw [hval] <;> by_cases hc : x % m > m / 2
  · rw [if_pos hc]
    omega
  · rw [if_neg hc]
    omega
  · rw [if_pos hc]
    omega
  · rw [if_neg hc]
    omega
  · rw [if_pos hc, Int.emod_sub_cancel, Int.emod_emod_of_dvd x dvd_rfl]
  · rw [if_neg hc]
    exact Int.emod_emod_of_dvd x dvd_rfl

theorem c4_reduce_and_center_scalar_witness :
    reduce_and_center_scalar 10 7 = 3 ∧
    (7 : ℤ) / 2 - 7 < reduce_and_center_scalar 10 7 ∧
    reduce_and_center_scalar 10 7 ≤ (7 : ℤ) / 2 ∧
    reduce_and_center_scalar 10 7 % 7 = 10 % 7 := by
  have h := c4_reduce_and_center_scalar 10 7 (by decide)
  exact ⟨by decide, h.2.2.2.1, h.2.2.2.2.1, h.2.2.2.2.2⟩

/-- C6: `mul` returns the single-coefficient zero polynomial whenever
either operand is structurally zero, regardless of lengths; otherwise it
returns the schoolbook convolution, of length
`len(a) + len(b) - 1`. -/
theorem c6_mul_cases (a b : Polynomial) :
    ((a.is_zero = true ∨ b.is_zero = true) → a.mul b = Polynomial.zero 0) ∧
    (a.is_zero = false → b.is_zero = false →
      (a.mul b).coefficients.length
          = a.coefficients.length + b.coefficients.length - 1 ∧
      ∀ m, (a.mul b).coefficients.getD m 0
          = convAt a.coefficients b.coefficients m) := by
  constructor
  · intro h
    unfold Polynomial.mul
    rw [if_pos h]
  · intro ha hb
    have hmul : a.mul b = ⟨mulRaw a.coefficients b.coefficients⟩ := by
      unfold Polynomial.mul
      rw [if_neg (by simp [ha, hb])]
    rw [hmul]
    have hbne : b.coefficients ≠ [] := is_zero_false_nonempty b hb
    have hb1 : 1 ≤ b.coefficients.length := by
      cases hh : b.coefficients with
      | nil => exact absurd hh hbne
      | cons x xs => simp
    exact ⟨length_mulRaw _ _, fun m => getD_mulRaw _ _ hb1 m⟩

theorem c6_mul_cases_witness :
    (Polynomial.new [0, 0]).mul (Polynomial.new [1, 2, 3]) = Polynomial.zero 0 ∧
    ((Polynomial.new [1, 2]).mul (Polynomial.new [1, 3])).coefficients.length
        = (Polynomial.new [1, 2]).coefficients.length
          + (Polynomial.new [1, 3]).coefficients.length - 1 ∧
    ((Polynomial.new [1, 2]).mul (Polynomial.new [1, 3])).coefficients.getD 1 0
        = convAt (Polynomial.new [1, 2]).coefficients (Polynomial.new [1, 3]).coefficients 1 :=
  ⟨(c6_mul_cases (Polynomial.new [0, 0]) (Polynomial.new [1, 2, 3])).1 (Or.inl rfl),
   ((c6_mul_cases (Polynomial.new [1, 2]) (Polynomial.new [1, 3])).2 rfl rfl).1,
   ((c6_mul_cases (Polynomial.new [1, 2]) (Polynomial.new [1, 3])).2 rfl rfl).2 1⟩

/-- C7: `add` has length exactly the maximum of the operand lengths (so
it is never trimmed), and each coefficient at ascending position `k`
equals the sum of the operands' coefficients at position `k`, missing
high-degree coefficients counting as zero. -/
theorem c7_add_pointwise (a b : Polynomial) :
    (a.add b).coefficients.length
        = max a.coefficients.length b.coefficients.length ∧
    ∀ k, coeffAt (a.add b).coefficients k
        = coeffAt a.coefficients k + coeffAt b.coefficients k :=
  ⟨length_addCoeffs _ _, fun k => coeffAt_addCoeffs _ _ k⟩

/-- C8: for a divisor passing the error checks, when
`degree(a) < degree(divisor)` the result is `(zero(0), a)` with the
dividend unchanged; otherwise the quotient has length
`len(a) - len(divisor) + 1`. -/
theorem c8_div_shapes (a d : Polynomial)
    (hz : d.is_zero = false) (hl : d.coefficients.getD 0 0 ≠ 0) :
    (a.degree < d.degree → a.div d = .ok (Polynomial.zero 0, a)) ∧
    (¬ a.degree < d.degree → ∃ q r, a.div d = .ok (q, r) ∧
      (q.coefficients.length : ℤ)
        = (a.coefficients.length : ℤ) - (d.coefficients.length : ℤ) + 1) := by
  constructor
  · intro hdeg
    exact div_eq_early a d hz hl hdeg
  · intro hdeg
    obtain ⟨hd1, hd2⟩ := main_branch_arith a d hz hdeg
    obtain ⟨hql, _⟩ := divQuotRem_lengths a d
    refine ⟨⟨(divQuotRem a d).1⟩, ⟨(divQuotRem a d).2.dropWhile (fun c => decide (c = 0))⟩,
      div_eq_main a d hz hl hdeg, ?_⟩
    show ((divQuotRem a d).1.length : ℤ) = _
    rw [hql]
    omega

theorem c8_div_shapes_witness :
    (Polynomial.new [7]).div (Polynomial.new [1, 2])
        = .ok (Polynomial.zero 0, Polynomial.new [7]) ∧
    ∃ q r, (Polynomial.new [1, 5, 6]).div (Polynomial.new [1, 2]) = .ok (q, r) ∧
      (q.coefficients.length : ℤ)
        = ((Polynomial.new [1, 5, 6]).coefficients.length : ℤ)
          - ((Polynomial.new [1, 2]).coefficients.length : ℤ) + 1 :=
  ⟨(c8_div_shapes (Polynomial.new [7]) (Polynomial.new [1, 2]) rfl (by decide)).1
      (by decide),
   (c8_div_shapes (Polynomial.new [1, 5, 6]) (Polynomial.new [1, 2]) rfl (by decide)).2
      (by decide)⟩

/-- C9: `div` always returns either an error or a (quotient, remainder)
pair, and in the division loop every bounds guard is slack: the strict
variant of the loop, which fails on the early break, on an out-of-range
quotient write, or on any skipped `remainder[i + j]` update, succeeds
and computes the same result. -/
theorem c9_div_total_and_inbounds (p d : Polynomial) :
    ((∃ e, p.div d = .error e) ∨ (∃ q r, p.div d = .ok (q, r))) ∧
    (d.is_zero = false → d.coefficients.getD 0 0 ≠ 0 → ¬ p.degree < d.degree →
      divLoopStrict d.coefficients (p.coefficients.length + 1 - d.coefficients.length) 0
        (List.replicate (p.coefficients.length + 1 - d.coefficients.length) 0)
        p.coefficients
      = some (divQuotRem p d)) := by
  constructor
  · unfold Polynomial.div
    by_cases h1 : d.is_zero = true
    · rw [if_pos h1]
      exact Or.inl ⟨_, rfl⟩
    · rw [if_neg h1]
      by_cases h2 : d.coefficients.isEmpty = true ∨ d.coefficients.getD 0 0 = 0
      · rw [if_pos h2]
        exact Or.inl ⟨_, rfl⟩
      · rw [if_neg h2]
        by_cases h3 : p.degree < d.degree
        · rw [if_pos h3]
          exact Or.inr ⟨_, _, rfl⟩
        · rw [if_neg h3]
          exact Or.inr ⟨_, _, rfl⟩
  · intro hz hl hdeg
    obtain ⟨hd1, hd2⟩ := main_branch_arith p d hz hdeg
    exact divLoopStrict_eq_divLoop d.coefficients hd1 _ 0 _ _
      (by rw [List.length_replicate]; omega) (by rw [List.length_replicate]; omega)

theorem c9_div_total_and_inbounds_witness :
    ((∃ e, (Polynomial.new [1, 5, 6]).div (Polynomial.new [1, 2]) = .error e) ∨
      (∃ q r, (Polynomial.new [1, 5, 6]).div (Polynomial.new [1, 2]) = .ok (q, r))) ∧
    divLoopStrict [1, 2] 2 0 (List.replicate 2 0) [1, 5, 6]
      = some (divQuotRem (Polynomial.new [1, 5, 6]) (Polynomial.new [1, 2])) := by
  have h := c9_div_total_and_inbounds (Polynomial.new [1, 5, 6]) (Polynomial.new [1, 2])
  exact ⟨h.1, h.2 rfl (by decide) (by decide)⟩

/-- C10: trimming an empty polynomial returns it unchanged at length 0;
for a non-empty polynomial the result has length at least 1, the input
is the result prefixed by zero coefficients only (so the trailing,
low-degree coefficients are preserved), and whenever the result has
length above 1 its leading coefficient is nonzero. -/
theorem c10_trim_leading_zeros (p : Polynomial) :
    (p.coefficients = [] →
      p.trim_leading_zeros = p ∧ p.trim_leading_zeros.coefficients.length = 0) ∧
    (p.coefficients ≠ [] →
      1 ≤ p.trim_leading_zeros.coefficients.length ∧
      (∃ zs, p.coefficients = zs ++ p.trim_leading_zeros.coefficients ∧
        ∀ z ∈ zs, z = 0) ∧
      (1 < p.trim_leading_zeros.coefficients.length →
        p.trim_leading_zeros.coefficients.getD 0 0 ≠ 0)) := by
  constructor
  · intro he
    cases p with
    | mk cs =>
      simp only at he
      subst he
      exact ⟨rfl, rfl⟩
  · intro hne
    exact trimAux_spec p.coefficients hne

theorem c10_trim_leading_zeros_witness :
    ((Polynomial.new []).trim_leading_zeros = Polynomial.new [] ∧
      (Polynomial.new []).trim_leading_zeros.coefficients.length = 0) ∧
    (1 ≤ (Polynomial.new [0, 5]).trim_leading_zeros.coefficients.length ∧
      (∃ zs, (Polynomial.new [0, 5]).coefficients
          = zs ++ (Polynomial.new [0, 5]).trim_leading_zeros.coefficients ∧
        ∀ z ∈ zs, z = 0) ∧
      (1 < (Polynomial.new [0, 5]).trim_leading_zeros.coefficients.length →
        (Polynomial.new [0, 5]).trim_leading_zeros.coefficients.getD 0 0 ≠ 0)) :=
  ⟨(c10_trim_leading_zeros (Polynomial.new [])).1 rfl,
   (c10_trim_leading_zeros (Polynomial.new [0, 5])).2 (by decide)⟩

/-! ### Cyclotomic reduction -/

theorem reduce_by_cyclotomic_error (a : Polynomial) (cyclo : List ℤ) (e : PolynomialError)
    (h : a.div (Polynomial.new cyclo) = .error e) :
    a.reduce_by_cyclotomic cyclo = .error e := by
  unfold Polynomial.reduce_by_cyclotomic
  rw [h]

theorem reduce_by_cyclotomic_ok (a : Polynomial) (cyclo : List ℤ) (q r : Polynomial)
    (h : a.div (Polynomial.new cyclo) = .ok (q, r)) :
    a.reduce_by_cyclotomic cyclo
      = if r.coefficients.isEmpty = true
        then .ok ⟨List.replicate (cyclo.length - 1) 0⟩
        else .ok ⟨setSlice (List.replicate (cyclo.length - 1) 0)
          (cyclo.length - 1 - r.coefficients.length)
          (min (cyclo.length - 1 - r.coefficients.length + r.coefficients.length)
            (cyclo.length - 1))
          r.coefficients⟩ := by
  unfold Polynomial.reduce_by_cyclotomic
  rw [h]

/-- C3 (counterexample): dividing `x` by `2x` leaves remainder `x`
(two stored coefficients), which does not fit in the `n = 1` output
slots; the code keeps the remainder's high-degree coefficient, so the
output is not the remainder aligned at the low-degree end. -/
theorem c3_counterexample :
    (Polynomial.new [1, 0]).div (Polynomial.new [2, 0])
        = .ok (Polynomial.new [0], Polynomial.new [1, 0]) ∧
    (Polynomial.new [1, 0]).reduce_by_cyclotomic [2, 0] = .ok (Polynomial.new [1]) ∧
    coeffAt (Polynomial.new [1]).coefficients 0
        ≠ coeffAt (Polynomial.new [1, 0]).coefficients 0 := by
  refine ⟨rfl, rfl, ?_⟩
  decide

/-- C3 (amended): `reduce_by_cyclotomic` propagates any error of
`a.div` on the polynomial built from `cyclo`; on success the result has
exactly `n = len(cyclo) - 1` coefficients, and equals the remainder
right-aligned at the low-degree end with zero padding at the
high-degree end when the remainder has at most `n` coefficients; a
longer remainder is instead truncated to its `n` highest-degree
coefficients. -/
theorem c3_reduce_by_cyclotomic (a : Polynomial) (cyclo : List ℤ) :
    (∀ e, a.div (Polynomial.new cyclo) = .error e →
      a.reduce_by_cyclotomic cyclo = .error e) ∧
    (∀ q r, a.div (Polynomial.new cyclo) = .ok (q, r) →
      ∃ out, a.reduce_by_cyclotomic cyclo = .ok out ∧
        out.coefficients.length = cyclo.length - 1 ∧
        (r.coefficients.length ≤ cyclo.length - 1 →
          out.coefficients
            = List.replicate (cyclo.length - 1 - r.coefficients.length) 0
              ++ r.coefficients) ∧
        (cyclo.length - 1 < r.coefficients.length →
          out.coefficients = r.coefficients.take (cyclo.length - 1))) := by
  constructor
  · exact fun e h => reduce_by_cyclotomic_error a cyclo e h
  · intro q r h
    by_cases hre : r.coefficients.isEmpty = true
    · have hrnil : r.coefficients = [] := by simpa [List.isEmpty_iff] using hre
      refine ⟨⟨List.replicate (cyclo.length - 1) 0⟩, ?_, by simp, ?_, ?_⟩
      · rw [reduce_by_cyclotomic_ok a cyclo q r h, if_pos hre]
      · intro _
        rw [hrnil]
        simp
      · intro hx
        rw [hrnil] at hx
        simp at hx
    · have hrne : r.coefficients ≠ [] := by simpa [List.isEmpty_iff] using hre
      have hlr : 1 ≤ r.coefficients.length := by
        cases hh : r.coefficients with
        | nil => exact absurd hh hrne
        | cons x xs => simp
      refine ⟨⟨setSlice (List.replicate (cyclo.length - 1) 0)
          (cyclo.length - 1 - r.coefficients.length)
          (min (cyclo.length - 1 - r.coefficients.length + r.coefficients.length)
            (cyclo.length - 1)) r.coefficients⟩, ?_, ?_, ?_, ?_⟩
      · rw [reduce_by_cyclotomic_ok a cyclo q r h, if_neg hre]
      · show (setSlice (List.replicate (cyclo.length - 1) 0)
            (cyclo.length - 1 - r.coefficients.length)
            (min (cyclo.length - 1 - r.coefficients.length + r.coefficients.length)
              (cyclo.length - 1)) r.coefficients).length = cyclo.length - 1
        unfold setSlice
        rw [List.length_append, List.length_append, List.length_take, List.length_take,
          List.length_drop, List.length_replicate]
        omega
      · intro hle
        show setSlice (List.replicate (cyclo.length - 1) 0)
            (cyclo.length - 1 - r.coefficients.length)
            (min (cyclo.length - 1 - r.coefficients.length + r.coefficients.length)
              (cyclo.length - 1)) r.coefficients
          = List.replicate (cyclo.length - 1 - r.coefficients.length) 0 ++ r.coefficients
        unfold setSlice
        rw [(by omega : min (cyclo.length - 1 - r.coefficients.length
              + r.coefficients.length) (cyclo.length - 1) = cyclo.length - 1),
          (by omega : cyclo.length - 1 - (cyclo.length - 1 - r.coefficients.length)
              = r.coefficients.length),
          List.take_length, List.take_replicate,
          (by omega : min (cyclo.length - 1 - r.coefficients.length) (cyclo.length - 1)
              = cyclo.length - 1 - r.coefficients.length),
          (by simp : (List.replicate (cyclo.length - 1) (0 : ℤ)).drop (cyclo.length - 1)
              = []),
          List.append_nil]
      · intro hgt
        show setSlice (List.replicate (cyclo.length - 1) 0)
            (cyclo.length - 1 - r.coefficients.length)
            (min (cyclo.length - 1 - r.coefficients.length + r.coefficients.length)
              (cyclo.length - 1)) r.coefficients
          = r.coefficients.take (cyclo.length - 1)
        unfold setSlice
        rw [(by omega : cyclo.length - 1 - r.coefficients.length = 0),
          (by omega : min (0 + r.coefficients.length) (cyclo.length - 1)
              = cyclo.length - 1),
          List.take_zero, List.nil_append,
          (by omega : cyclo.length - 1 - 0 = cyclo.length - 1),
          (by simp : (List.replicate (cyclo.length - 1) (0 : ℤ)).drop (cyclo.length - 1)
              = []),
          List.append_nil]

theorem c3_reduce_by_cyclotomic_witness :
    (Polynomial.new [1]).reduce_by_cyclotomic [] = .error .DivisionByZero ∧
    ∃ out, (Polynomial.new [1, 5, 6]).reduce_by_cyclotomic [1, 2] = .ok out ∧
      out.coefficients.length = ([1, 2] : List ℤ).length - 1 ∧
      ((Polynomial.new []).coefficients.length ≤ ([1, 2] : List ℤ).length - 1 →
        out.coefficients
          = List.replicate (([1, 2] : List ℤ).length - 1
              - (Polynomial.new []).coefficients.length) 0
            ++ (Polynomial.new []).coefficients) ∧
      (([1, 2] : List ℤ).length - 1 < (Polynomial.new []).coefficients.length →
        out.coefficients = (Polynomial.new []).coefficients.take
          (([1, 2] : List ℤ).length - 1)) :=
  ⟨(c3_reduce_by_cyclotomic (Polynomial.new [1]) []).1 .DivisionByZero rfl,
   (c3_reduce_by_cyclotomic (Polynomial.new [1, 5, 6]) [1, 2]).2
     (Polynomial.new [1, 3]) (Polynomial.new []) rfl⟩

/-! ### Display rendering -/

/-- The nonzero terms of an indexed coefficient list, with each index
converted to its degree for total length `len`. -/
def termsOf (len : Nat) (l : List (Nat × ℤ)) : List (Nat × ℤ) :=
  (l.filter (fun t => decide (t.2 ≠ 0))).map (fun t => (len - 1 - t.1, t.2))

theorem termsOf_nil (len : Nat) : termsOf len [] = [] := rfl

theorem termsOf_cons_zero (len i : Nat) (c : ℤ) (rest : List (Nat × ℤ)) (hc : c = 0) :
    termsOf len ((i, c) :: rest) = termsOf len rest := by
  unfold termsOf
  rw [List.filter_cons]
  simp [hc]

theorem termsOf_cons_nonzero (len i : Nat) (c : ℤ) (rest : List (Nat × ℤ)) (hc : c ≠ 0) :
    termsOf len ((i, c) :: rest) = (len - 1 - i, c) :: termsOf len rest := by
  unfold termsOf
  rw [List.filter_cons]
  simp [hc]

theorem displayAux_false (len : Nat) :
    ∀ (l : List (Nat × ℤ)) (acc : String),
      displayAux len l acc false = acc ++ joinTail (termsOf len l) := by
  intro l
  induction l with
  | nil =>
    intro acc
    rw [termsOf_nil]
    show acc = acc ++ ""
    rw [String.append_empty]
  | cons t rest ih =>
    rcases t with ⟨i, c⟩
    intro acc
    have hstep : displayAux len ((i, c) :: rest) acc false
        = if c = 0 then displayAux len rest acc false
          else displayAux len rest
            (acc ++ (if 0 < c then " + " else " - ") ++ termBody c (len - 1 - i)) false :=
      rfl
    by_cases hc : c = 0
    · rw [hstep, if_pos hc, ih acc, termsOf_cons_zero len i c rest hc]
    · rw [hstep, if_neg hc, ih _, termsOf_cons_nonzero len i c rest hc]
      show (acc ++ (if 0 < c then " + " else " - ") ++ termBody c (len - 1 - i))
          ++ joinTail (termsOf len rest)
        = acc ++ ((if 0 < c then " + " else " - ") ++ termBody c (len - 1 - i)
          ++ joinTail (termsOf len rest))
      rw [String.append_assoc, String.append_assoc,
        String.append_assoc (if 0 < c then " + " else " - ") (termBody c (len - 1 - i))
          (joinTail (termsOf len rest))]

theorem displayAux_true (len : Nat) :
    ∀ (l : List (Nat × ℤ)) (acc : String),
      displayAux len l acc true = acc ++ renderTerms (termsOf len l) := by
  intro l
  induction l with
  | nil =>
    intro acc
    rfl
  | cons t rest ih =>
    rcases t with ⟨i, c⟩
    intro acc
    have hstep : displayAux len ((i, c) :: rest) acc true
        = if c = 0 then displayAux len rest acc true
          else displayAux len rest (acc ++ "" ++ termBody c (len - 1 - i)) false :=
      rfl
    by_cases hc : c = 0
    · rw [hstep, if_pos hc, ih acc, termsOf_cons_zero len i c rest hc]
    · rw [hstep, if_neg hc, displayAux_false len rest _,
        termsOf_cons_nonzero len i c rest hc]
      show (acc ++ "" ++ termBody c (len - 1 - i)) ++ joinTail (termsOf len rest)
        = acc ++ (termBody c (len - 1 - i) ++ joinTail (termsOf len rest))
      rw [String.append_empty, String.append_assoc]

theorem toDisplayString_eq_specRender (p : Polynomial) :
    p.toDisplayString = specRender p.coefficients := by
  unfold Polynomial.toDisplayString specRender
  by_cases he : p.coefficients.isEmpty = true
  · rw [if_pos he]
    have hnil : p.coefficients = [] := by simpa [List.isEmpty_iff] using he
    rw [hnil]
    rfl
  · rw [if_neg he,
      displayAux_true p.coefficients.length p.coefficients.enum ""]
    show "" ++ renderTerms (nonzeroTerms p.coefficients) = _
    cases hh : renderTerms (nonzeroTerms p.coefficients) with
    | mk data => rfl

theorem enumFrom_filter_zero :
    ∀ (l : List ℤ) (n : Nat), (∀ c ∈ l, c = 0) →
      (List.enumFrom n l).filter (fun t => decide (t.2 ≠ 0)) = [] := by
  intro l
  induction l with
  | nil => intro n _; rfl
  | cons c rest ih =>
    intro n h
    rw [List.enumFrom_cons, List.filter_cons]
    have hc : c = 0 := h c (by simp)
    simp only [hc]
    rw [ih (n + 1) (fun x hx => h x (by simp [hx]))]
    simp

/-- C5: the textual rendering skips zero coefficients, joins the
nonzero terms with `" + "` for a positive and `" - "` for a negative
coefficient, omits a coefficient magnitude of 1 except at degree 0,
omits the indeterminate at degree 0, writes a bare `x` at degree 1 and
`x^k` for degree `k > 1` (the content of `specRender`); every all-zero
polynomial, the empty one included, renders as `"0"`; and
`new([2,-3,1])` renders as `"2x^2 - 3x + 1"`. -/
theorem c5_display (p : Polynomial) :
    p.toDisplayString = specRender p.coefficients ∧
    (p.is_zero = true → p.toDisplayString = "0") ∧
    (Polynomial.new [2, -3, 1]).toDisplayString = "2x^2 - 3x + 1" := by
  refine ⟨toDisplayString_eq_specRender p, ?_, rfl⟩
  intro hz
  rw [toDisplayString_eq_specRender p]
  unfold specRender nonzeroTerms
  rw [show p.coefficients.enum = List.enumFrom 0 p.coefficients from rfl,
    enumFrom_filter_zero p.coefficients 0 ((is_zero_iff p).mp hz)]
  rfl

theorem c5_display_witness :
    (Polynomial.new [0, 0]).toDisplayString = "0" ∧
    (Polynomial.new [2, -3, 1]).toDisplayString = "2x^2 - 3x + 1" :=
  ⟨(c5_display (Polynomial.new [0, 0])).2.1 rfl,
   (c5_display (Polynomial.new [0, 0])).2.2⟩

end BigintPoly
